import Mathlib

/-!
Verification of the dot-matrix display library (`src/lib/dmd.js`).

The JavaScript source is shallowly embedded: the closure state of a `DMD`
object becomes an explicit `DMDState` record that every operation threads,
JavaScript numbers used as grid coordinates become `Int`, the backing array
`data` becomes a total map `Int → Option String` (a JavaScript array read
out of range yields `undefined`, modelled as `none`; a write out of range
creates the property, modelled by updating the map at that key), and the
canvas/timer collaborators — pure side effects that never flow back into the
state — are not modelled.  The repaint callback `painter` only mutates the
two dirty-tracking fields, so its embedding `painterStep` is a state
transformer on those fields.
-/

/-- A JavaScript value passed as the `color` argument of `set`
(`src/lib/dmd.js` lines 71-81).  `str s` is a value with `typeof === 'string'`;
`arr l` is an array of numbers (`typeof === 'object'`, and `l.join()` succeeds);
`omitted` is `undefined`; `other` stands for any remaining primitive
(number, boolean, ...) whose `typeof` is none of `'object'`, `'undefined'`,
`'string'`. -/
inductive ColorArg where
  | str : String → ColorArg
  | arr : List Nat → ColorArg
  | omitted : ColorArg
  | other : ColorArg
deriving DecidableEq

/-- The color-resolution ladder at the top of `dmd.set`:
an object is joined into `'rgb(' + color.join() + ')'`, `undefined` becomes
the `off` style, any other non-string is rejected (`return;`, modelled as
`none`), and a string is used as is. -/
def resolveColor (off : String) : ColorArg → Option String
  | ColorArg.arr l => some ("rgb(" ++ String.intercalate "," (l.map Nat.repr) ++ ")")
  | ColorArg.omitted => some off
  | ColorArg.str s => some s
  | ColorArg.other => none

/-- The closure state of one `DMD` object: the grid dimensions
(`dot_width`/`dot_height`), the `off` fill style, the backing array `data`,
and the two dirty-tracking variables `dirty` and `dirtyIndicies`.
`data` is a total map from flat index to the stored value (`none` =
JavaScript `undefined`).  Canvas-related configuration (`dot_size`,
`refresh`, `drawMode`, `background`) only feeds the unmodelled canvas
side effects and is omitted. -/
structure DMDState where
  width : Nat
  height : Nat
  off : String
  data : Int → Option String
  dirty : Bool
  dirtyIndicies : List Int

/-- The source `dmd.clear`: every cell of the backing array (its length is
`dot_width * dot_height`) is set to the `off` style and the global dirty
flag is raised. -/
def DMDState.clear (st : DMDState) : DMDState :=
  { st with
    data := fun i =>
      if 0 ≤ i ∧ i < (st.width * st.height : Int) then some st.off else st.data i
    dirty := true }

/-- The `DMD` constructor, specialised to the state we model: the backing
array starts unset (`new Array(w*h)`), `dirty = true`, `dirtyIndicies = []`,
and `dmd.clear()` runs before the constructor returns. -/
def DMD.init (width height : Nat) (off : String) : DMDState :=
  DMDState.clear
    { width := width, height := height, off := off,
      data := fun _ => none, dirty := true, dirtyIndicies := [] }

/-- The source `dmd.set`: resolve the color (an invalid color returns
without touching anything), then unconditionally — there is no bounds
check — write `data[y * dot_width + x]` and push that flat index onto
`dirtyIndicies`. -/
def DMDState.set (st : DMDState) (x y : Int) (c : ColorArg) : DMDState :=
  match resolveColor st.off c with
  | none => st
  | some col =>
    { st with
      data := fun i =>
        if i = y * (st.width : Int) + x then some col else st.data i
      dirtyIndicies := st.dirtyIndicies ++ [y * (st.width : Int) + x] }

/-- Effect of one invocation of the repaint callback `painter`
(`src/lib/dmd.js` lines 171-220) on the dirty-tracking state.  The canvas
drawing it performs is a pure side effect.  Structure of the source: an
early return when neither dirty signal is pending; otherwise, if `dirty`
is set, a full repaint runs and only `dirty = false` is assigned; else the
sparse branch repaints the accumulated indices and truncates
`dirtyIndicies.length = 0`. -/
def painterStep (st : DMDState) : DMDState :=
  if st.dirty = false ∧ st.dirtyIndicies = [] then st
  else if st.dirty = true then { st with dirty := false }
  else { st with dirtyIndicies := [] }

/-- A bitmap glyph from a font table: a JavaScript array of rows (each row
an array of numbers) carrying an optional cached `width` property.
`width = none` models the property being absent. -/
structure Glyph where
  rows : List (List Int)
  width : Option Nat
deriving DecidableEq

/-- The truthiness test `!characterFont.width`: the cached width is missing
(`undefined`) or `0`, both falsy in JavaScript. -/
def widthMissing (g : Glyph) : Bool :=
  match g.width with
  | none => true
  | some 0 => true
  | some (_ + 1) => false

/-- The loop body of `updateFontData`: the computed width is the maximum
row length over the glyph's rows (every row is an array, so the
`typeof characterFont[i] === 'object'` test always passes). -/
def glyphWidth (g : Glyph) : Nat :=
  g.rows.foldl (fun acc r => max acc r.length) 0

/-- The source `updateFontData(characterFont)`: computes the maximum row
length and caches it as the glyph's `width` property. -/
def updateFontData (g : Glyph) : Glyph :=
  { g with width := some (glyphWidth g) }

/-- A font table: a JavaScript object mapping a single character to its
glyph, modelled as an association list. -/
def FontTable : Type := List (Char × Glyph)

/-- Property lookup `font[c]` on a font table. -/
def fontLookup (f : FontTable) (c : Char) : Option Glyph :=
  (f.find? (fun p => p.1 == c)).map (fun p => p.2)

/-- In-place mutation of the glyph stored under character `c` (the source
mutates the glyph object shared with the table). -/
def fontUpdate (f : FontTable) (c : Char) (g : Glyph) : FontTable :=
  f.map (fun p => if p.1 == c then (p.1, g) else p)

/-- The source `updateFont(font)` iterates `for (i = 0; i < font.length; i++)`.
A font table is a character-keyed object, so `font.length` is `undefined`,
the loop condition `i < undefined` is false from the start, the body never
runs, and the table is returned unchanged. -/
def updateFont (font : FontTable) : FontTable := font

/- Concrete states used by the examples: a 4×4 grid with `dot_size = 1`
and the default off style, as in the spec's worked examples. -/

/-- A freshly constructed 4×4 display. -/
def st4 : DMDState := DMD.init 4 4 "rgb(50,50,50)"

/-- The glyph `[[0,1,0],[1,1,1]]` from the spec's font example, with no
cached width. -/
def glyphA : Glyph := { rows := [[0, 1, 0], [1, 1, 1]], width := none }

/-- The one-character font table `{'A': [[0,1,0],[1,1,1]]}`. -/
def fontA : FontTable := [('A', glyphA)]

/- Basic frame lemmas about `set`, shared by several developments below. -/

theorem DMDState.set_width (st : DMDState) (x y : Int) (c : ColorArg) :
    (st.set x y c).width = st.width := by
  unfold DMDState.set
  cases resolveColor st.off c <;> rfl

theorem DMDState.set_height (st : DMDState) (x y : Int) (c : ColorArg) :
    (st.set x y c).height = st.height := by
  unfold DMDState.set
  cases resolveColor st.off c <;> rfl

theorem DMDState.set_off (st : DMDState) (x y : Int) (c : ColorArg) :
    (st.set x y c).off = st.off := by
  unfold DMDState.set
  cases resolveColor st.off c <;> rfl

theorem DMDState.set_data_ne (st : DMDState) (x y : Int) (c : ColorArg) (i : Int)
    (h : i ≠ y * (st.width : Int) + x) :
    (st.set x y c).data i = st.data i := by
  unfold DMDState.set
  cases resolveColor st.off c with
  | none => rfl
  | some col => simp [h]

/-- C6: for every in-bounds coordinate and every color that resolves, `set`
stores the resolved color at flat index `y * width + x` and appends that
index to the pending dirty-index collection. -/
theorem set_in_bounds_stores (st : DMDState) (x y : Int) (c : ColorArg) (col : String)
    (hx0 : 0 ≤ x) (hx1 : x < (st.width : Int))
    (hy0 : 0 ≤ y) (hy1 : y < (st.height : Int))
    (hc : resolveColor st.off c = some col) :
    (st.set x y c).data (y * (st.width : Int) + x) = some col ∧
      (y * (st.width : Int) + x) ∈ (st.set x y c).dirtyIndicies := by
  unfold DMDState.set
  rw [hc]
  refine ⟨by simp, ?_⟩
  simp

/-- Witness for C6 at the spec's example: on a 4×4 grid,
`set(1, 1, 'rgb(1,2,3)')` stores `'rgb(1,2,3)'` at flat index `5` and `5`
enters the dirty-index collection. -/
theorem set_in_bounds_stores_witness :
    (st4.set 1 1 (ColorArg.str "rgb(1,2,3)")).data 5 = some "rgb(1,2,3)" ∧
      (5 : Int) ∈ (st4.set 1 1 (ColorArg.str "rgb(1,2,3)")).dirtyIndicies := by
  have h := set_in_bounds_stores st4 1 1 (ColorArg.str "rgb(1,2,3)") "rgb(1,2,3)"
    (by decide) (by decide) (by decide) (by decide) rfl
  exact h

/-- C2 (the code violates the claim): `set(5, 0, 'red')` on a fresh 4×4
grid is out of bounds (`5 ≥ width`), yet it overwrites flat index
`0*4+5 = 5` — the backing cell of the valid coordinate `(1, 1)` — which
held the off color before the call. -/
theorem set_out_of_bounds_corrupts :
    (4 : Int) ≤ 5 ∧
      st4.data 5 = some "rgb(50,50,50)" ∧
      (st4.set 5 0 (ColorArg.str "red")).data 5 = some "red" := by
  refine ⟨by decide, ?_, ?_⟩ <;> decide

/-- C5 (the code violates the claim as stated): the pair array `[1,2]` is
neither a string, nor a channel triple, nor omitted, yet `set(1, 1, [1,2])`
is not a no-op — it joins the array and stores `'rgb(1,2)'` in the cell at
flat index `5`, which held the off color before. -/
theorem set_pair_array_writes :
    st4.data 5 = some "rgb(50,50,50)" ∧
      (st4.set 1 1 (ColorArg.arr [1, 2])).data 5 = some "rgb(1,2)" ∧
      (st4.set 1 1 (ColorArg.arr [1, 2])).dirtyIndicies = [5] := by
  refine ⟨?_, ?_, ?_⟩ <;> decide

/-- C5 amended: for a primitive color argument that is neither a string
nor `undefined` (number, boolean, ...), `set` is a silent no-op — the whole
state, in particular every cell and the dirty-index collection, is
unchanged.  (Arrays of any length, not only triples, are accepted and
joined into an `'rgb(...)'` string.) -/
theorem set_invalid_primitive_noop (st : DMDState) (x y : Int) :
    st.set x y ColorArg.other = st := rfl

/-- C1 (the code violates the claim): a reachable full-dirty state with a
pending per-index entry.  After construction, `set(1, 1, 'white')` leaves
the global flag raised and pushes index `5`; one `painter` invocation then
takes the full-repaint branch, which clears the flag but leaves the
per-index dirty collection non-empty (`[5]`), contradicting the claim that
a cycle always empties it. -/
theorem painter_full_repaint_keeps_indices :
    (st4.set 1 1 (ColorArg.str "white")).dirty = true ∧
      (painterStep (st4.set 1 1 (ColorArg.str "white"))).dirty = false ∧
      (painterStep (st4.set 1 1 (ColorArg.str "white"))).dirtyIndicies = [5] := by
  refine ⟨?_, ?_, ?_⟩ <;> decide

/-- C1 amended: one `painter` invocation always lowers the global-dirty
flag; it empties the per-index dirty collection when the flag was low on
entry, but when the flag was high (full repaint) the collection is left
exactly as it was — it is drained only by a later invocation. -/
theorem painter_cycle_behavior (st : DMDState) :
    (painterStep st).dirty = false ∧
      (st.dirty = false → (painterStep st).dirtyIndicies = []) ∧
      (st.dirty = true → (painterStep st).dirtyIndicies = st.dirtyIndicies) := by
  cases hd : st.dirty with
  | false =>
    by_cases h2 : st.dirtyIndicies = []
    · simp [painterStep, hd, h2]
    · simp [painterStep, hd, h2]
  | true => simp [painterStep, hd]

/-- Witness for C1's amended theorem at the reachable full-dirty state of
the counterexample: the invocation lowers the flag and keeps the pending
index collection `[5]`. -/
theorem painter_cycle_behavior_witness :
    (painterStep (st4.set 1 1 (ColorArg.str "white"))).dirty = false ∧
      (painterStep (st4.set 1 1 (ColorArg.str "white"))).dirtyIndicies =
        (st4.set 1 1 (ColorArg.str "white")).dirtyIndicies := by
  have h := painter_cycle_behavior (st4.set 1 1 (ColorArg.str "white"))
  exact ⟨h.1, h.2.2 (by decide)⟩

/-- C3 (the code violates the claim): `updateFont` on the character-keyed
table `{'A': [[0,1,0],[1,1,1]]}` caches nothing — the loop bound
`font.length` is `undefined` on such an object, so zero iterations run,
the table is returned unchanged, and the glyph's width stays uncached. -/
theorem updateFont_caches_nothing :
    updateFont fontA = fontA ∧
      fontLookup (updateFont fontA) 'A' = some glyphA ∧
      glyphA.width = none := by
  refine ⟨rfl, ?_, rfl⟩
  decide

/- The compositing primitive `dmd.draw` (`src/lib/dmd.js` lines 98-139).
The options object `{color, fill}` is passed as two arguments; an absent
`fill` is falsy, hence `false`. -/

/-- One inner-loop iteration of `dmd.draw`: at painting position
`(px, py)`, with bit `b` of the current row, the cell is painted iff the
column is in range and the bit is lit (`row[j] === 1`) or `fill` forces
painting; a lit bit paints with `color`, an unlit forced bit paints with
`undefined` (the off style).  The returned boolean is the contribution to
`hasPrinted`. -/
def drawStep (st : DMDState) (px py : Int) (b : Int) (color : ColorArg) (fill : Bool) :
    DMDState × Bool :=
  if 0 ≤ px ∧ px < (st.width : Int) then
    if b = 1 ∨ fill = true then
      (st.set px py (if b = 1 then color else ColorArg.omitted), true)
    else (st, false)
  else (st, false)

/-- The inner loop of `dmd.draw` over one row, starting at painting column
`px`; the loop variable `j` becomes the distance from `px`. -/
def drawRow (st : DMDState) (px py : Int) (row : List Int) (color : ColorArg) (fill : Bool) :
    DMDState × Bool :=
  match row with
  | [] => (st, false)
  | b :: rest =>
    let s := drawStep st px py b color fill
    let n := drawRow s.1 (px + 1) py rest color fill
    (n.1, s.2 || n.2)

/-- The body of the outer loop of `dmd.draw` for one row: the row is
processed only when the painting row `py` is in range (each row is an
array, so the `typeof row === 'object'` test always passes). -/
def rowStep (st : DMDState) (x py : Int) (row : List Int) (color : ColorArg) (fill : Bool) :
    DMDState × Bool :=
  if 0 ≤ py ∧ py < (st.height : Int) then drawRow st x py row color fill else (st, false)

/-- The outer loop of `dmd.draw` over the shape's rows, starting at
painting row `py`. -/
def drawRows (st : DMDState) (x py : Int) (shape : List (List Int)) (color : ColorArg)
    (fill : Bool) : DMDState × Bool :=
  match shape with
  | [] => (st, false)
  | row :: rest =>
    let s := rowStep st x py row color fill
    let n := drawRows s.1 x (py + 1) rest color fill
    (n.1, s.2 || n.2)

/-- The source `dmd.draw`: composite `shape` at offset `(x, y)`, returning
`hasPrinted`. -/
def DMDState.draw (st : DMDState) (x y : Int) (shape : List (List Int)) (color : ColorArg)
    (fill : Bool) : DMDState × Bool :=
  drawRows st x y shape color fill

/-- Cell `i` was touched between two states: its stored value changed, or
its index was newly added to the dirty collection. -/
def Touched (st st2 : DMDState) (i : Int) : Prop :=
  st2.data i ≠ st.data i ∨ (i ∈ st2.dirtyIndicies ∧ i ∉ st.dirtyIndicies)

theorem touched_refl (st : DMDState) (i : Int) : ¬ Touched st st i := by
  simp [Touched]

theorem touched_trans {st1 st3 : DMDState} (st2 : DMDState) {i : Int}
    (h : Touched st1 st3 i) : Touched st1 st2 i ∨ Touched st2 st3 i := by
  rcases h with hd | ⟨h3, h1⟩
  · by_cases h2 : st2.data i = st1.data i
    · right; exact Or.inl (by rw [h2]; exact hd)
    · left; exact Or.inl h2
  · by_cases h2 : i ∈ st2.dirtyIndicies
    · left; exact Or.inr ⟨h2, h1⟩
    · right; exact Or.inr ⟨h3, h2⟩

theorem DMDState.set_touched (st : DMDState) (x y : Int) (c : ColorArg) (i : Int)
    (h : Touched st (st.set x y c) i) : i = y * (st.width : Int) + x := by
  by_contra hne
  rcases h with hd | ⟨hin, hout⟩
  · exact hd (st.set_data_ne x y c i hne)
  · have hmem : i ∈ st.dirtyIndicies := by
      unfold DMDState.set at hin
      cases hres : resolveColor st.off c with
      | none => rw [hres] at hin; exact hin
      | some col =>
        rw [hres] at hin
        simp only [List.mem_append, List.mem_singleton] at hin
        rcases hin with hin | hin
        · exact hin
        · exact absurd hin hne
    exact hout hmem

theorem drawStep_fst_cases (st : DMDState) (px py : Int) (b : Int) (color : ColorArg)
    (fill : Bool) :
    (drawStep st px py b color fill).1 = st ∨
      ((drawStep st px py b color fill).1 =
          st.set px py (if b = 1 then color else ColorArg.omitted) ∧
        0 ≤ px ∧ px < (st.width : Int) ∧ (b = 1 ∨ fill = true)) := by
  unfold drawStep
  by_cases h1 : 0 ≤ px ∧ px < (st.width : Int)
  · by_cases h2 : b = 1 ∨ fill = true
    · rw [if_pos h1, if_pos h2]
      exact Or.inr ⟨rfl, h1.1, h1.2, h2⟩
    · rw [if_pos h1, if_neg h2]
      exact Or.inl rfl
  · rw [if_neg h1]
    exact Or.inl rfl

theorem drawStep_width (st : DMDState) (px py : Int) (b : Int) (color : ColorArg)
    (fill : Bool) : (drawStep st px py b color fill).1.width = st.width := by
  rcases drawStep_fst_cases st px py b color fill with h | ⟨h, _, _, _⟩
  · rw [h]
  · rw [h, DMDState.set_width]

theorem drawStep_height (st : DMDState) (px py : Int) (b : Int) (color : ColorArg)
    (fill : Bool) : (drawStep st px py b color fill).1.height = st.height := by
  rcases drawStep_fst_cases st px py b color fill with h | ⟨h, _, _, _⟩
  · rw [h]
  · rw [h, DMDState.set_height]

theorem drawStep_touched (st : DMDState) (px py : Int) (b : Int) (color : ColorArg)
    (fill : Bool) (i : Int) (hT : Touched st (drawStep st px py b color fill).1 i) :
    i = py * (st.width : Int) + px ∧ 0 ≤ px ∧ px < (st.width : Int) ∧
      (b = 1 ∨ fill = true) := by
  rcases drawStep_fst_cases st px py b color fill with h | ⟨h, h0, h1, h2⟩
  · rw [h] at hT; exact absurd hT (touched_refl st i)
  · rw [h] at hT
    exact ⟨DMDState.set_touched st px py _ i hT, h0, h1, h2⟩

theorem drawStep_snd (st : DMDState) (px py : Int) (b : Int) (color : ColorArg)
    (fill : Bool) :
    (drawStep st px py b color fill).2 = true ↔
      (0 ≤ px ∧ px < (st.width : Int)) ∧ (b = 1 ∨ fill = true) := by
  unfold drawStep
  by_cases h1 : 0 ≤ px ∧ px < (st.width : Int)
  · by_cases h2 : b = 1 ∨ fill = true
    · rw [if_pos h1, if_pos h2]; simp [h1, h2]
    · rw [if_pos h1, if_neg h2]; simp [h1, h2]
  · rw [if_neg h1]; simp [h1]

theorem drawRow_width (st : DMDState) (px py : Int) (row : List Int) (color : ColorArg)
    (fill : Bool) : (drawRow st px py row color fill).1.width = st.width := by
  induction row generalizing st px with
  | nil => rfl
  | cons b rest ih =>
    show (drawRow (drawStep st px py b color fill).1 (px + 1) py rest color fill).1.width
        = st.width
    rw [ih, drawStep_width]

theorem drawRow_height (st : DMDState) (px py : Int) (row : List Int) (color : ColorArg)
    (fill : Bool) : (drawRow st px py row color fill).1.height = st.height := by
  induction row generalizing st px with
  | nil => rfl
  | cons b rest ih =>
    show (drawRow (drawStep st px py b color fill).1 (px + 1) py rest color fill).1.height
        = st.height
    rw [ih, drawStep_height]

theorem drawRow_touched (st : DMDState) (px py : Int) (row : List Int) (color : ColorArg)
    (fill : Bool) (i : Int) (hT : Touched st (drawRow st px py row color fill).1 i) :
    ∃ j : Nat, j < row.length ∧ i = py * (st.width : Int) + (px + (j : Int)) ∧
      0 ≤ px + (j : Int) ∧ px + (j : Int) < (st.width : Int) ∧
      (row.getD j 0 = 1 ∨ fill = true) := by
  induction row generalizing st px with
  | nil => exact absurd hT (touched_refl st i)
  | cons b rest ih =>
    have hT2 : Touched st
        (drawRow (drawStep st px py b color fill).1 (px + 1) py rest color fill).1 i := hT
    rcases touched_trans (drawStep st px py b color fill).1 hT2 with hL | hR
    · obtain ⟨heq, h0, h1, h2⟩ := drawStep_touched st px py b color fill i hL
      refine ⟨0, by simp, by simpa using heq, by simpa using h0, by simpa using h1, ?_⟩
      simpa using h2
    · obtain ⟨j, hj, heq, hj0, hj1, hbit⟩ := ih (drawStep st px py b color fill).1 (px + 1) hR
      rw [drawStep_width] at heq hj1
      refine ⟨j + 1, by simpa using Nat.succ_lt_succ hj, ?_, ?_, ?_, by simpa using hbit⟩
      · rw [heq]; push_cast; ring
      · push_cast at hj0 ⊢; omega
      · push_cast at hj1 ⊢; omega

theorem drawRow_snd (st : DMDState) (px py : Int) (row : List Int) (color : ColorArg)
    (fill : Bool) :
    (drawRow st px py row color fill).2 = true ↔
      ∃ j : Nat, j < row.length ∧ 0 ≤ px + (j : Int) ∧ px + (j : Int) < (st.width : Int) ∧
        (row.getD j 0 = 1 ∨ fill = true) := by
  induction row generalizing st px with
  | nil => simp [drawRow]
  | cons b rest ih =>
    have hW := drawStep_width st px py b color fill
    have hsplit : (drawRow st px py (b :: rest) color fill).2 =
        ((drawStep st px py b color fill).2 ||
          (drawRow (drawStep st px py b color fill).1 (px + 1) py rest color fill).2) := rfl
    rw [hsplit, Bool.or_eq_true]
    constructor
    · intro h
      rcases h with h1 | h2
      · obtain ⟨⟨ha, hb⟩, hc⟩ := (drawStep_snd st px py b color fill).mp h1
        exact ⟨0, by simp, by simpa using ha, by simpa using hb, by simpa using hc⟩
      · obtain ⟨j, hj, h0, h1, hbit⟩ := (ih (drawStep st px py b color fill).1 (px + 1)).mp h2
        rw [hW] at h1
        refine ⟨j + 1, by simpa using Nat.succ_lt_succ hj, ?_, ?_, by simpa using hbit⟩
        · push_cast at h0 ⊢; omega
        · push_cast at h1 ⊢; omega
    · rintro ⟨j, hj, h0, h1, hbit⟩
      cases j with
      | zero =>
        refine Or.inl ((drawStep_snd st px py b color fill).mpr ?_)
        exact ⟨⟨by simpa using h0, by simpa using h1⟩, by simpa using hbit⟩
      | succ j' =>
        refine Or.inr ((ih (drawStep st px py b color fill).1 (px + 1)).mpr ?_)
        refine ⟨j', ?_, ?_, ?_, by simpa using hbit⟩
        · simp only [List.length_cons] at hj; omega
        · push_cast at h0 ⊢; omega
        · rw [hW]; push_cast at h1 ⊢; omega

theorem rowStep_width (st : DMDState) (x py : Int) (row : List Int) (color : ColorArg)
    (fill : Bool) : (rowStep st x py row color fill).1.width = st.width := by
  unfold rowStep
  split_ifs with h
  · exact drawRow_width st x py row color fill
  · rfl

theorem rowStep_height (st : DMDState) (x py : Int) (row : List Int) (color : ColorArg)
    (fill : Bool) : (rowStep st x py row color fill).1.height = st.height := by
  unfold rowStep
  split_ifs with h
  · exact drawRow_height st x py row color fill
  · rfl

theorem rowStep_touched (st : DMDState) (x py : Int) (row : List Int) (color : ColorArg)
    (fill : Bool) (i : Int) (hT : Touched st (rowStep st x py row color fill).1 i) :
    (0 ≤ py ∧ py < (st.height : Int)) ∧
      ∃ j : Nat, j < row.length ∧ i = py * (st.width : Int) + (x + (j : Int)) ∧
        0 ≤ x + (j : Int) ∧ x + (j : Int) < (st.width : Int) ∧
        (row.getD j 0 = 1 ∨ fill = true) := by
  unfold rowStep at hT
  split_ifs at hT with h
  · exact ⟨h, drawRow_touched st x py row color fill i hT⟩
  · exact absurd hT (touched_refl st i)

theorem rowStep_snd (st : DMDState) (x py : Int) (row : List Int) (color : ColorArg)
    (fill : Bool) :
    (rowStep st x py row color fill).2 = true ↔
      (0 ≤ py ∧ py < (st.height : Int)) ∧
        ∃ j : Nat, j < row.length ∧ 0 ≤ x + (j : Int) ∧ x + (j : Int) < (st.width : Int) ∧
          (row.getD j 0 = 1 ∨ fill = true) := by
  unfold rowStep
  split_ifs with h
  · rw [drawRow_snd]
    exact ⟨fun hx => ⟨h, hx⟩, fun hx => hx.2⟩
  · simp [h]

theorem drawRows_width (st : DMDState) (x py : Int) (shape : List (List Int))
    (color : ColorArg) (fill : Bool) :
    (drawRows st x py shape color fill).1.width = st.width := by
  induction shape generalizing st py with
  | nil => rfl
  | cons row rest ih =>
    show (drawRows (rowStep st x py row color fill).1 x (py + 1) rest color fill).1.width
        = st.width
    rw [ih, rowStep_width]

theorem drawRows_height (st : DMDState) (x py : Int) (shape : List (List Int))
    (color : ColorArg) (fill : Bool) :
    (drawRows st x py shape color fill).1.height = st.height := by
  induction shape generalizing st py with
  | nil => rfl
  | cons row rest ih =>
    show (drawRows (rowStep st x py row color fill).1 x (py + 1) rest color fill).1.height
        = st.height
    rw [ih, rowStep_height]

theorem drawRows_touched (st : DMDState) (x py : Int) (shape : List (List Int))
    (color : ColorArg) (fill : Bool) (i : Int)
    (hT : Touched st (drawRows st x py shape color fill).1 i) :
    ∃ r : Nat, r < shape.length ∧ 0 ≤ py + (r : Int) ∧ py + (r : Int) < (st.height : Int) ∧
      ∃ j : Nat, j < (shape.getD r []).length ∧
        i = (py + (r : Int)) * (st.width : Int) + (x + (j : Int)) ∧
        0 ≤ x + (j : Int) ∧ x + (j : Int) < (st.width : Int) ∧
        ((shape.getD r []).getD j 0 = 1 ∨ fill = true) := by
  induction shape generalizing st py with
  | nil => exact absurd hT (touched_refl st i)
  | cons row rest ih =>
    have hT2 : Touched st
        (drawRows (rowStep st x py row color fill).1 x (py + 1) rest color fill).1 i := hT
    rcases touched_trans (rowStep st x py row color fill).1 hT2 with hL | hR
    · obtain ⟨⟨hy0, hy1⟩, j, hj, heq, hj0, hj1, hbit⟩ :=
        rowStep_touched st x py row color fill i hL
      refine ⟨0, by simp, by simpa using hy0, by simpa using hy1,
        j, by simpa using hj, by simpa using heq, hj0, hj1, by simpa using hbit⟩
    · obtain ⟨r, hr, hr0, hr1, j, hj, heq, hj0, hj1, hbit⟩ :=
        ih (rowStep st x py row color fill).1 (py + 1) hR
      rw [rowStep_width] at heq hj1
      rw [rowStep_height] at hr1
      refine ⟨r + 1, by simpa using Nat.succ_lt_succ hr, ?_, ?_,
        j, by simpa using hj, ?_, hj0, hj1, by simpa using hbit⟩
      · push_cast at hr0 ⊢; omega
      · push_cast at hr1 ⊢; omega
      · rw [heq]; push_cast; ring

theorem drawRows_snd (st : DMDState) (x py : Int) (shape : List (List Int))
    (color : ColorArg) (fill : Bool) :
    (drawRows st x py shape color fill).2 = true ↔
      ∃ r : Nat, r < shape.length ∧ 0 ≤ py + (r : Int) ∧ py + (r : Int) < (st.height : Int) ∧
        ∃ j : Nat, j < (shape.getD r []).length ∧ 0 ≤ x + (j : Int) ∧
          x + (j : Int) < (st.width : Int) ∧
          ((shape.getD r []).getD j 0 = 1 ∨ fill = true) := by
  induction shape generalizing st py with
  | nil => simp [drawRows]
  | cons row rest ih =>
    have hW := rowStep_width st x py row color fill
    have hH := rowStep_height st x py row color fill
    have hsplit : (drawRows st x py (row :: rest) color fill).2 =
        ((rowStep st x py row color fill).2 ||
          (drawRows (rowStep st x py row color fill).1 x (py + 1) rest color fill).2) := rfl
    rw [hsplit, Bool.or_eq_true]
    constructor
    · intro h
      rcases h with h1 | h2
      · obtain ⟨⟨hy0, hy1⟩, j, hj, hj0, hj1, hbit⟩ :=
          (rowStep_snd st x py row color fill).mp h1
        exact ⟨0, by simp, by simpa using hy0, by simpa using hy1,
          j, by simpa using hj, hj0, hj1, by simpa using hbit⟩
      · obtain ⟨r, hr, hr0, hr1, j, hj, hj0, hj1, hbit⟩ :=
          (ih (rowStep st x py row color fill).1 (py + 1)).mp h2
        rw [hW] at hj1
        rw [hH] at hr1
        refine ⟨r + 1, by simpa using Nat.succ_lt_succ hr, ?_, ?_,
          j, by simpa using hj, hj0, hj1, by simpa using hbit⟩
        · push_cast at hr0 ⊢; omega
        · push_cast at hr1 ⊢; omega
    · rintro ⟨r, hr, hr0, hr1, j, hj, hj0, hj1, hbit⟩
      cases r with
      | zero =>
        refine Or.inl ((rowStep_snd st x py row color fill).mpr ?_)
        refine ⟨⟨by simpa using hr0, by simpa using hr1⟩,
          j, by simpa using hj, hj0, hj1, by simpa using hbit⟩
      | succ r' =>
        refine Or.inr ((ih (rowStep st x py row color fill).1 (py + 1)).mpr ?_)
        refine ⟨r', ?_, ?_, ?_, j, by simpa using hj, hj0, ?_, by simpa using hbit⟩
        · simp only [List.length_cons] at hr; omega
        · push_cast at hr0 ⊢; omega
        · rw [hH]; push_cast at hr1 ⊢; omega
        · rw [hW]; exact hj1

/- Arithmetic facts about the flat index `y * width + x`. -/

theorem flat_bounds (W H : Nat) (a b : Int) (ha0 : 0 ≤ a) (ha1 : a < (W : Int))
    (hb0 : 0 ≤ b) (hb1 : b < (H : Int)) :
    0 ≤ b * (W : Int) + a ∧ b * (W : Int) + a < (W : Int) * (H : Int) := by
  have hW : (0 : Int) ≤ (W : Int) := Int.natCast_nonneg W
  constructor
  · have := mul_nonneg hb0 hW
    linarith
  · have hb2 : b + 1 ≤ (H : Int) := by omega
    have h3 : (b + 1) * (W : Int) ≤ (H : Int) * (W : Int) :=
      mul_le_mul_of_nonneg_right hb2 hW
    nlinarith

theorem flat_inj (W : Nat) (a1 b1 a2 b2 : Int)
    (h1 : 0 ≤ a1) (h2 : a1 < (W : Int)) (h3 : 0 ≤ a2) (h4 : a2 < (W : Int))
    (h : b1 * (W : Int) + a1 = b2 * (W : Int) + a2) : a1 = a2 ∧ b1 = b2 := by
  have hW : (0 : Int) ≤ (W : Int) := Int.natCast_nonneg W
  rcases lt_trichotomy b1 b2 with hlt | heq | hgt
  · exfalso
    have hd : (1 : Int) ≤ b2 - b1 := by omega
    have := mul_le_mul_of_nonneg_right hd hW
    nlinarith
  · subst heq
    constructor
    · linarith
    · rfl
  · exfalso
    have hd : (1 : Int) ≤ b1 - b2 := by omega
    have := mul_le_mul_of_nonneg_right hd hW
    nlinarith

/-- C4 (the code violates the claim as stated): with `fill = true`, drawing
the all-unlit shape `[[0]]` at `(0, 0)` on a 4×4 grid returns `true`, even
though the shape contains no lit bit at all, so `true` is returned without
any lit bit having been plotted. -/
theorem draw_fill_true_without_lit :
    (st4.draw 0 0 [[0]] (ColorArg.str "white") true).2 = true ∧
      ¬ ∃ r ∈ ([[0]] : List (List Int)), ∃ b ∈ r, b = 1 := by
  constructor
  · decide
  · decide

/-- C4 amended: `draw(x, y, shape, options)` returns `true` iff some bit of
the shape targets an in-bounds cell and that bit is lit or `fill` is set.
With `fill = false` this is exactly "some lit bit was plotted onto an
in-bounds cell", so the call returns `false` when the shape is empty, fully
out of bounds, or entirely unlit; with `fill = true` an in-bounds all-unlit
shape also returns `true`. -/
theorem draw_true_iff (st : DMDState) (x y : Int) (shape : List (List Int))
    (color : ColorArg) (fill : Bool) :
    (st.draw x y shape color fill).2 = true ↔
      ∃ r : Nat, r < shape.length ∧ 0 ≤ y + (r : Int) ∧ y + (r : Int) < (st.height : Int) ∧
        ∃ j : Nat, j < (shape.getD r []).length ∧ 0 ≤ x + (j : Int) ∧
          x + (j : Int) < (st.width : Int) ∧
          ((shape.getD r []).getD j 0 = 1 ∨ fill = true) :=
  drawRows_snd st x y shape color fill

/-- C10: `draw` bounds-checks every target coordinate before calling `set`,
so a cell of the backing sequence changes only if its flat index is that of
an in-bounds grid coordinate covered by the shape's footprint; in
particular every changed index lies in `[0, width*height)`. -/
theorem draw_writes_only_footprint (st : DMDState) (x y : Int) (shape : List (List Int))
    (color : ColorArg) (fill : Bool) (i : Int)
    (h : (st.draw x y shape color fill).1.data i ≠ st.data i) :
    (0 ≤ i ∧ i < (st.width : Int) * (st.height : Int)) ∧
      ∃ r : Nat, r < shape.length ∧ 0 ≤ y + (r : Int) ∧ y + (r : Int) < (st.height : Int) ∧
        ∃ j : Nat, j < (shape.getD r []).length ∧
          i = (y + (r : Int)) * (st.width : Int) + (x + (j : Int)) ∧
          0 ≤ x + (j : Int) ∧ x + (j : Int) < (st.width : Int) := by
  obtain ⟨r, hr, hr0, hr1, j, hj, heq, hj0, hj1, _⟩ :=
    drawRows_touched st x y shape color fill i (Or.inl h)
  have hb := flat_bounds st.width st.height (x + (j : Int)) (y + (r : Int)) hj0 hj1 hr0 hr1
  refine ⟨?_, r, hr, hr0, hr1, j, hj, heq, hj0, hj1⟩
  rw [heq]
  exact hb

/-- Witness for C10: drawing `[[1]]` at `(0, 0)` on the 4×4 grid changes
flat index `0`, and the theorem locates that change inside the footprint
and inside `[0, 16)`. -/
theorem draw_writes_only_footprint_witness :
    (0 ≤ (0 : Int) ∧ (0 : Int) < (st4.width : Int) * (st4.height : Int)) ∧
      ∃ r : Nat, r < ([[1]] : List (List Int)).length ∧
        0 ≤ (0 : Int) + (r : Int) ∧ (0 : Int) + (r : Int) < (st4.height : Int) ∧
        ∃ j : Nat, j < (([[1]] : List (List Int)).getD r []).length ∧
          (0 : Int) = ((0 : Int) + (r : Int)) * (st4.width : Int) + ((0 : Int) + (j : Int)) ∧
          0 ≤ (0 : Int) + (j : Int) ∧ (0 : Int) + (j : Int) < (st4.width : Int) :=
  draw_writes_only_footprint st4 0 0 [[1]] (ColorArg.str "white") false 0 (by decide)

/-- C8: with `fill = false`, a cell whose corresponding bitmap bit is not
lit keeps its stored color and its flat index is not added to the
dirty-index collection. -/
theorem draw_nofill_preserves (st : DMDState) (x y : Int) (shape : List (List Int))
    (color : ColorArg) (i j : Nat)
    (hi : i < shape.length) (hj : j < (shape.getD i []).length)
    (hb : (shape.getD i []).getD j 0 ≠ 1)
    (hx0 : 0 ≤ x + (j : Int)) (hx1 : x + (j : Int) < (st.width : Int))
    (hy0 : 0 ≤ y + (i : Int)) (hy1 : y + (i : Int) < (st.height : Int)) :
    (st.draw x y shape color false).1.data
        ((y + (i : Int)) * (st.width : Int) + (x + (j : Int))) =
      st.data ((y + (i : Int)) * (st.width : Int) + (x + (j : Int))) ∧
      (((y + (i : Int)) * (st.width : Int) + (x + (j : Int))) ∈
          (st.draw x y shape color false).1.dirtyIndicies →
        ((y + (i : Int)) * (st.width : Int) + (x + (j : Int))) ∈ st.dirtyIndicies) := by
  have hNT : ¬ Touched st (st.draw x y shape color false).1
      ((y + (i : Int)) * (st.width : Int) + (x + (j : Int))) := by
    intro hT
    obtain ⟨r, hr, hr0, hr1, j', hj', heq, hj'0, hj'1, hbit⟩ :=
      drawRows_touched st x y shape color false _ hT
    have hbit1 : (shape.getD r []).getD j' 0 = 1 := by
      rcases hbit with hB | hB
      · exact hB
      · simp at hB
    obtain ⟨hxx, hyy⟩ := flat_inj st.width (x + (j' : Int)) (y + (r : Int))
      (x + (j : Int)) (y + (i : Int)) hj'0 hj'1 hx0 hx1 heq.symm
    have hjj : j' = j := by omega
    have hii : r = i := by omega
    rw [hjj, hii] at hbit1
    exact hb hbit1
  rw [Touched, not_or] at hNT
  obtain ⟨hd, hm⟩ := hNT
  constructor
  · exact not_not.mp hd
  · intro hmem
    by_contra hout
    exact hm ⟨hmem, hout⟩

/-- Witness for C8: drawing `[[0, 1]]` at `(0, 0)` with `fill = false`
leaves the bit-0 cell at flat index `0` unchanged and does not dirty it. -/
theorem draw_nofill_preserves_witness :
    (st4.draw 0 0 [[0, 1]] (ColorArg.str "white") false).1.data 0 = st4.data 0 ∧
      (0 : Int) ∉ (st4.draw 0 0 [[0, 1]] (ColorArg.str "white") false).1.dirtyIndicies := by
  have h := draw_nofill_preserves st4 0 0 [[0, 1]] (ColorArg.str "white") 0 0
    (by decide) (by decide) (by decide) (by decide) (by decide) (by decide) (by decide)
  constructor
  · exact h.1
  · intro hmem
    exact absurd (h.2 hmem) (by decide)

/- The border-rectangle primitive `dmd.rect` (`src/lib/dmd.js` lines
159-167): two nested `for` loops, the outer over columns `i` from `x`
while `i < x + w`, the inner over rows `j` from `y` while `j < y + h`,
painting `(i, j)` when `j == y || j == y + h - 1 || i == x || i == x + w - 1`. -/

/-- The successive values `a, a+1, ..., a+n-1` of a `for` loop counter. -/
def intRange (a : Int) (n : Nat) : List Int :=
  (List.range n).map (fun (k : Nat) => a + (k : Int))

/-- The inner loop of `dmd.rect` at a fixed column `i`, over the listed row
values. -/
def rectRowLoop (x y w h i : Int) (c : ColorArg) : DMDState → List Int → DMDState
  | st, [] => st
  | st, j :: rest =>
    rectRowLoop x y w h i c
      (if j = y ∨ j = y + h - 1 ∨ i = x ∨ i = x + w - 1 then st.set i j c else st) rest

/-- The outer loop of `dmd.rect` over the listed column values. -/
def rectColLoop (x y w h : Int) (c : ColorArg) : DMDState → List Int → DMDState
  | st, [] => st
  | st, i :: rest =>
    rectColLoop x y w h c (rectRowLoop x y w h i c st (intRange y h.toNat)) rest

/-- The source `dmd.rect`: the outer loop runs over the `w.toNat` column
values starting at `x`, the inner loop over the `h.toNat` row values
starting at `y` (a non-positive extent yields zero iterations). -/
def DMDState.rect (st : DMDState) (x y w h : Int) (c : ColorArg) : DMDState :=
  rectColLoop x y w h c st (intRange x w.toNat)

theorem mem_intRange (a : Int) (n : Nat) (t : Int) :
    t ∈ intRange a n ↔ a ≤ t ∧ t < a + (n : Int) := by
  unfold intRange
  constructor
  · intro hmem
    obtain ⟨k, hk, hEq⟩ := List.mem_map.mp hmem
    rw [List.mem_range] at hk
    omega
  · intro hin
    apply List.mem_map.mpr
    refine ⟨(t - a).toNat, ?_, ?_⟩
    · rw [List.mem_range]
      omega
    · omega

theorem rectRowLoop_width (x y w h i : Int) (c : ColorArg) (js : List Int)
    (st : DMDState) : (rectRowLoop x y w h i c st js).width = st.width := by
  induction js generalizing st with
  | nil => rfl
  | cons j rest ih =>
    show (rectRowLoop x y w h i c
        (if j = y ∨ j = y + h - 1 ∨ i = x ∨ i = x + w - 1 then st.set i j c else st)
        rest).width = st.width
    by_cases hcond : j = y ∨ j = y + h - 1 ∨ i = x ∨ i = x + w - 1
    · rw [if_pos hcond, ih, DMDState.set_width]
    · rw [if_neg hcond, ih]

theorem rectRowLoop_off (x y w h i : Int) (c : ColorArg) (js : List Int)
    (st : DMDState) : (rectRowLoop x y w h i c st js).off = st.off := by
  induction js generalizing st with
  | nil => rfl
  | cons j rest ih =>
    show (rectRowLoop x y w h i c
        (if j = y ∨ j = y + h - 1 ∨ i = x ∨ i = x + w - 1 then st.set i j c else st)
        rest).off = st.off
    by_cases hcond : j = y ∨ j = y + h - 1 ∨ i = x ∨ i = x + w - 1
    · rw [if_pos hcond, ih, DMDState.set_off]
    · rw [if_neg hcond, ih]

theorem rectRowLoop_touched (x y w h i : Int) (c : ColorArg) (js : List Int)
    (st : DMDState) (k : Int)
    (hT : Touched st (rectRowLoop x y w h i c st js) k) :
    ∃ j ∈ js, (j = y ∨ j = y + h - 1 ∨ i = x ∨ i = x + w - 1) ∧
      k = j * (st.width : Int) + i := by
  induction js generalizing st with
  | nil => exact absurd hT (touched_refl st k)
  | cons j rest ih =>
    have hT2 : Touched st (rectRowLoop x y w h i c
        (if j = y ∨ j = y + h - 1 ∨ i = x ∨ i = x + w - 1 then st.set i j c else st)
        rest) k := hT
    by_cases hcond : j = y ∨ j = y + h - 1 ∨ i = x ∨ i = x + w - 1
    · rw [if_pos hcond] at hT2
      rcases touched_trans (st.set i j c) hT2 with hL | hR
      · exact ⟨j, List.mem_cons_self j rest, hcond, DMDState.set_touched st i j c k hL⟩
      · obtain ⟨j', hj'm, hj'c, hj'e⟩ := ih (st.set i j c) hR
        rw [DMDState.set_width] at hj'e
        exact ⟨j', List.mem_cons_of_mem j hj'm, hj'c, hj'e⟩
    · rw [if_neg hcond] at hT2
      obtain ⟨j', hj'm, hj'c, hj'e⟩ := ih st hT2
      exact ⟨j', List.mem_cons_of_mem j hj'm, hj'c, hj'e⟩

theorem rectColLoop_width (x y w h : Int) (c : ColorArg) (is : List Int)
    (st : DMDState) : (rectColLoop x y w h c st is).width = st.width := by
  induction is generalizing st with
  | nil => rfl
  | cons i rest ih =>
    show (rectColLoop x y w h c
        (rectRowLoop x y w h i c st (intRange y h.toNat)) rest).width = st.width
    rw [ih, rectRowLoop_width]

theorem rectColLoop_off (x y w h : Int) (c : ColorArg) (is : List Int)
    (st : DMDState) : (rectColLoop x y w h c st is).off = st.off := by
  induction is generalizing st with
  | nil => rfl
  | cons i rest ih =>
    show (rectColLoop x y w h c
        (rectRowLoop x y w h i c st (intRange y h.toNat)) rest).off = st.off
    rw [ih, rectRowLoop_off]

theorem rectColLoop_touched (x y w h : Int) (c : ColorArg) (is : List Int)
    (st : DMDState) (k : Int)
    (hT : Touched st (rectColLoop x y w h c st is) k) :
    ∃ i ∈ is, ∃ j ∈ intRange y h.toNat,
      (j = y ∨ j = y + h - 1 ∨ i = x ∨ i = x + w - 1) ∧
      k = j * (st.width : Int) + i := by
  induction is generalizing st with
  | nil => exact absurd hT (touched_refl st k)
  | cons i rest ih =>
    have hT2 : Touched st (rectColLoop x y w h c
        (rectRowLoop x y w h i c st (intRange y h.toNat)) rest) k := hT
    rcases touched_trans (rectRowLoop x y w h i c st (intRange y h.toNat)) hT2 with hL | hR
    · obtain ⟨j, hjm, hjc, hje⟩ := rectRowLoop_touched x y w h i c _ st k hL
      exact ⟨i, List.mem_cons_self i rest, j, hjm, hjc, hje⟩
    · obtain ⟨i', hi'm, j, hjm, hjc, hje⟩ := ih (rectRowLoop x y w h i c st (intRange y h.toNat)) hR
      rw [rectRowLoop_width] at hje
      exact ⟨i', List.mem_cons_of_mem i hi'm, j, hjm, hjc, hje⟩

theorem set_writes (st : DMDState) (a b : Int) (c : ColorArg) (col : String)
    (hc : resolveColor st.off c = some col) :
    (st.set a b c).data (b * (st.width : Int) + a) = some col := by
  unfold DMDState.set
  rw [hc]
  simp

theorem set_keeps (st : DMDState) (a b : Int) (c : ColorArg) (col : String) (k : Int)
    (hc : resolveColor st.off c = some col) (h : st.data k = some col) :
    (st.set a b c).data k = some col := by
  unfold DMDState.set
  rw [hc]
  dsimp only
  split_ifs with hk
  · rfl
  · exact h

theorem rectRowLoop_keeps (x y w h i : Int) (c : ColorArg) (col : String) (js : List Int)
    (st : DMDState) (hc : resolveColor st.off c = some col) (k : Int)
    (hd : st.data k = some col) :
    (rectRowLoop x y w h i c st js).data k = some col := by
  induction js generalizing st with
  | nil => exact hd
  | cons j rest ih =>
    show (rectRowLoop x y w h i c
        (if j = y ∨ j = y + h - 1 ∨ i = x ∨ i = x + w - 1 then st.set i j c else st)
        rest).data k = some col
    by_cases hcond : j = y ∨ j = y + h - 1 ∨ i = x ∨ i = x + w - 1
    · rw [if_pos hcond]
      exact ih (st.set i j c) (by rw [DMDState.set_off]; exact hc)
        (set_keeps st i j c col k hc hd)
    · rw [if_neg hcond]
      exact ih st hc hd

theorem rectColLoop_keeps (x y w h : Int) (c : ColorArg) (col : String) (is : List Int)
    (st : DMDState) (hc : resolveColor st.off c = some col) (k : Int)
    (hd : st.data k = some col) :
    (rectColLoop x y w h c st is).data k = some col := by
  induction is generalizing st with
  | nil => exact hd
  | cons i rest ih =>
    show (rectColLoop x y w h c
        (rectRowLoop x y w h i c st (intRange y h.toNat)) rest).data k = some col
    exact ih (rectRowLoop x y w h i c st (intRange y h.toNat))
      (by rw [rectRowLoop_off]; exact hc)
      (rectRowLoop_keeps x y w h i c col (intRange y h.toNat) st hc k hd)

theorem rectRowLoop_paints (x y w h i : Int) (c : ColorArg) (col : String) (js : List Int)
    (st : DMDState) (hc : resolveColor st.off c = some col) (j0 : Int) (hmem : j0 ∈ js)
    (hcond : j0 = y ∨ j0 = y + h - 1 ∨ i = x ∨ i = x + w - 1) :
    (rectRowLoop x y w h i c st js).data (j0 * (st.width : Int) + i) = some col := by
  induction js generalizing st with
  | nil => cases hmem
  | cons j rest ih =>
    show (rectRowLoop x y w h i c
        (if j = y ∨ j = y + h - 1 ∨ i = x ∨ i = x + w - 1 then st.set i j c else st)
        rest).data (j0 * (st.width : Int) + i) = some col
    rcases List.mem_cons.mp hmem with rfl | hmemR
    · rw [if_pos hcond]
      have hwrite := set_writes st i j0 c col hc
      exact rectRowLoop_keeps x y w h i c col rest (st.set i j0 c)
        (by rw [DMDState.set_off]; exact hc) (j0 * (st.width : Int) + i) hwrite
    · by_cases hcond2 : j = y ∨ j = y + h - 1 ∨ i = x ∨ i = x + w - 1
      · rw [if_pos hcond2]
        have hres := ih (st.set i j c) (by rw [DMDState.set_off]; exact hc) hmemR
        rw [DMDState.set_width] at hres
        exact hres
      · rw [if_neg hcond2]
        exact ih st hc hmemR

theorem rectColLoop_paints (x y w h : Int) (c : ColorArg) (col : String) (is : List Int)
    (st : DMDState) (hc : resolveColor st.off c = some col) (i0 j0 : Int)
    (hi : i0 ∈ is) (hj : j0 ∈ intRange y h.toNat)
    (hcond : j0 = y ∨ j0 = y + h - 1 ∨ i0 = x ∨ i0 = x + w - 1) :
    (rectColLoop x y w h c st is).data (j0 * (st.width : Int) + i0) = some col := by
  induction is generalizing st with
  | nil => cases hi
  | cons i rest ih =>
    show (rectColLoop x y w h c
        (rectRowLoop x y w h i c st (intRange y h.toNat)) rest).data
        (j0 * (st.width : Int) + i0) = some col
    rcases List.mem_cons.mp hi with rfl | hiR
    · exact rectColLoop_keeps x y w h c col rest
        (rectRowLoop x y w h i0 c st (intRange y h.toNat))
        (by rw [rectRowLoop_off]; exact hc) (j0 * (st.width : Int) + i0)
        (rectRowLoop_paints x y w h i0 c col (intRange y h.toNat) st hc j0 hj hcond)
    · have hres := ih (rectRowLoop x y w h i c st (intRange y h.toNat))
        (by rw [rectRowLoop_off]; exact hc) hiR
      rw [rectRowLoop_width] at hres
      exact hres

/-- C9 (the code violates the claim as stated): `rect(3, 0, 3, 3, 'blue')`
on a fresh 4×4 grid paints flat index `4` — the cell at coordinate
`(0, 1)`, which lies entirely outside the box `[3,6)×[0,3)` and is no
border cell of it — because the border column `i = 5` is out of range and
`set(5, 0, ...)` aliases flat index `0*4+5 = 5`, `set(4, 0, ...)` aliases
`0*4+4 = 4`, and so on. -/
theorem rect_out_of_box_paints :
    st4.data 4 = some "rgb(50,50,50)" ∧
      (st4.rect 3 0 3 3 (ColorArg.str "blue")).data 4 = some "blue" := by
  constructor <;> decide

/-- C9 amended: when the box `[x, x+w) × [y, y+h)` lies entirely within
the grid (and the color resolves), exactly the border cells of the box are
painted with the resolved color, and every other in-grid cell — interior
of the box or outside it — keeps its stored color.  (For a box straddling
the grid edge this fails: out-of-range border coordinates alias other
cells' flat indices.) -/
theorem rect_border_only (st : DMDState) (x y w h : Int) (c : ColorArg) (col : String)
    (cx cy : Int)
    (hx : 0 ≤ x) (hw : 0 ≤ w) (hxw : x + w ≤ (st.width : Int))
    (hy : 0 ≤ y) (hh : 0 ≤ h) (hyh : y + h ≤ (st.height : Int))
    (hc : resolveColor st.off c = some col)
    (hcx0 : 0 ≤ cx) (hcx1 : cx < (st.width : Int))
    (hcy0 : 0 ≤ cy) (hcy1 : cy < (st.height : Int)) :
    ((x ≤ cx ∧ cx < x + w ∧ y ≤ cy ∧ cy < y + h ∧
        (cy = y ∨ cy = y + h - 1 ∨ cx = x ∨ cx = x + w - 1)) →
      (st.rect x y w h c).data (cy * (st.width : Int) + cx) = some col) ∧
    (¬(x ≤ cx ∧ cx < x + w ∧ y ≤ cy ∧ cy < y + h ∧
        (cy = y ∨ cy = y + h - 1 ∨ cx = x ∨ cx = x + w - 1)) →
      (st.rect x y w h c).data (cy * (st.width : Int) + cx) =
        st.data (cy * (st.width : Int) + cx)) := by
  constructor
  · rintro ⟨h1, h2, h3, h4, h5⟩
    exact rectColLoop_paints x y w h c col (intRange x w.toNat) st hc cx cy
      ((mem_intRange x w.toNat cx).mpr (by omega))
      ((mem_intRange y h.toNat cy).mpr (by omega)) h5
  · intro hnb
    by_contra hne
    obtain ⟨i0, hi0, j0, hj0, hcond, hkeq⟩ :=
      rectColLoop_touched x y w h c (intRange x w.toNat) st
        (cy * (st.width : Int) + cx) (Or.inl hne)
    have hi0r := (mem_intRange x w.toNat i0).mp hi0
    have hj0r := (mem_intRange y h.toNat j0).mp hj0
    obtain ⟨hia, hib⟩ := flat_inj st.width i0 j0 cx cy
      (by omega) (by omega) hcx0 hcx1 hkeq.symm
    exact hnb ⟨by omega, by omega, by omega, by omega, by
      rcases hcond with hq | hq | hq | hq
      · exact Or.inl (by omega)
      · exact Or.inr (Or.inl (by omega))
      · exact Or.inr (Or.inr (Or.inl (by omega)))
      · exact Or.inr (Or.inr (Or.inr (by omega)))⟩

/-- Witness for C9's amended theorem at the spec's example: on the 4×4
grid, `rect(0, 0, 3, 3, 'blue')` paints the border cell `(1, 0)` (flat
index `1`) blue. -/
theorem rect_border_only_witness :
    (st4.rect 0 0 3 3 (ColorArg.str "blue")).data 1 = some "blue" := by
  have h := rect_border_only st4 0 0 3 3 (ColorArg.str "blue") "blue" 1 0
    (by decide) (by decide) (by decide) (by decide) (by decide) (by decide) rfl
    (by decide) (by decide) (by decide) (by decide)
  exact h.1 (by decide)

/- The glyph compositor `DMDTextPrinter.print` (`src/lib/dmd.js` lines
257-283).  The loop walks the string while `currentX <= dmd.dot_width`;
an absent glyph is skipped (the cursor does not move); a present glyph is
width-cached if its `width` property is falsy, drawn at `(currentX, y)`,
counted when the draw reported a visible paint, and the cursor advances by
`width + 1`.  The font table is threaded because `updateFontData` mutates
the glyph object stored in it. -/

/-- The loop of `print`, recursing over the remaining characters with the
current cursor column `cx` and the counter `printed`. -/
def printAux (y : Int) (color : ColorArg) (fill : Bool) :
    DMDState → FontTable → List Char → Int → Nat → DMDState × FontTable × Nat
  | st, font, [], _, printed => (st, font, printed)
  | st, font, ch :: rest, cx, printed =>
    if cx ≤ (st.width : Int) then
      match fontLookup font ch with
      | none => printAux y color fill st font rest cx printed
      | some g =>
        let g2 := if widthMissing g then updateFontData g else g
        printAux y color fill (st.draw cx y g2.rows color fill).1 (fontUpdate font ch g2)
          rest (cx + (g2.width.getD 0 : Int) + 1)
          (printed + (if (st.draw cx y g2.rows color fill).2 then 1 else 0))
    else (st, font, printed)

/-- The source `print`: run the loop from column `x` with counter `0` and
return `printed > 0`. -/
def printText (st : DMDState) (font : FontTable) (x y : Int) (text : List Char)
    (color : ColorArg) (fill : Bool) : DMDState × FontTable × Bool :=
  ((printAux y color fill st font text x 0).1,
   (printAux y color fill st font text x 0).2.1,
   decide (0 < (printAux y color fill st font text x 0).2.2))

/-- The sequence of boolean results of the `dmd.draw` calls issued by one
`print` invocation, mirroring the recursion of `printAux`. -/
def printDraws (y : Int) (color : ColorArg) (fill : Bool) :
    DMDState → FontTable → List Char → Int → List Bool
  | _, _, [], _ => []
  | st, font, ch :: rest, cx =>
    if cx ≤ (st.width : Int) then
      match fontLookup font ch with
      | none => printDraws y color fill st font rest cx
      | some g =>
        let g2 := if widthMissing g then updateFontData g else g
        (st.draw cx y g2.rows color fill).2 ::
          printDraws y color fill (st.draw cx y g2.rows color fill).1 (fontUpdate font ch g2)
            rest (cx + (g2.width.getD 0 : Int) + 1)
    else []

theorem printAux_pos (text : List Char) :
    ∀ (st : DMDState) (font : FontTable) (y cx : Int) (color : ColorArg) (fill : Bool)
      (printed : Nat),
      (0 < (printAux y color fill st font text cx printed).2.2 ↔
        0 < printed ∨ true ∈ printDraws y color fill st font text cx) := by
  induction text with
  | nil =>
    intro st font y cx color fill printed
    simp [printAux, printDraws]
  | cons ch rest ih =>
    intro st font y cx color fill printed
    by_cases hguard : cx ≤ (st.width : Int)
    · rcases hlook : fontLookup font ch with _ | g
      · simp only [printAux, printDraws, hguard, hlook, if_true]
        exact ih st font y cx color fill printed
      · simp only [printAux, printDraws, hguard, hlook, if_true]
        rw [ih]
        cases hb : ((st.draw cx y
            (if widthMissing g then updateFontData g else g).rows color fill)).2 <;>
          simp [hb]
    · simp only [printAux, printDraws, hguard, if_false]
      simp

theorem printAux_empty_font (text : List Char) :
    ∀ (st : DMDState) (y cx : Int) (color : ColorArg) (fill : Bool) (printed : Nat),
      printAux y color fill st [] text cx printed = (st, [], printed) := by
  induction text with
  | nil => intro st y cx color fill printed; rfl
  | cons ch rest ih =>
    intro st y cx color fill printed
    by_cases hguard : cx ≤ (st.width : Int)
    · simp only [printAux, hguard, if_true]
      have hlook : fontLookup ([] : FontTable) ch = none := rfl
      rw [hlook]
      exact ih st y cx color fill printed
    · simp only [printAux, hguard, if_false]

/-- C7: behaviour of `print(x, y, text, options)`.  (1) A character whose
glyph is absent from the font is skipped without advancing the cursor.
(2) A present character is drawn and advances the cursor by its glyph
width plus one, regardless of whether the draw was visible (the counter
grows only when the draw returned `true`).  (3) `print` returns `true` iff
at least one of its `draw` calls returned `true`.  (4) With an empty font
it returns `false` and leaves the state — in particular every cell's
stored color — unchanged. -/
theorem print_behavior :
    (∀ (st : DMDState) (font : FontTable) (y cx : Int) (color : ColorArg) (fill : Bool)
        (ch : Char) (rest : List Char) (printed : Nat),
        cx ≤ (st.width : Int) → fontLookup font ch = none →
        printAux y color fill st font (ch :: rest) cx printed =
          printAux y color fill st font rest cx printed) ∧
    (∀ (st : DMDState) (font : FontTable) (y cx : Int) (color : ColorArg) (fill : Bool)
        (ch : Char) (rest : List Char) (printed : Nat) (g : Glyph),
        cx ≤ (st.width : Int) → fontLookup font ch = some g →
        printAux y color fill st font (ch :: rest) cx printed =
          printAux y color fill
            (st.draw cx y (if widthMissing g then updateFontData g else g).rows color fill).1
            (fontUpdate font ch (if widthMissing g then updateFontData g else g)) rest
            (cx + ((if widthMissing g then updateFontData g else g).width.getD 0 : Int) + 1)
            (printed +
              (if (st.draw cx y (if widthMissing g then updateFontData g else g).rows
                    color fill).2
                then 1 else 0))) ∧
    (∀ (st : DMDState) (font : FontTable) (x y : Int) (text : List Char) (color : ColorArg)
        (fill : Bool),
        (printText st font x y text color fill).2.2 = true ↔
          true ∈ printDraws y color fill st font text x) ∧
    (∀ (st : DMDState) (x y : Int) (text : List Char) (color : ColorArg) (fill : Bool),
        printText st [] x y text color fill = (st, [], false)) := by
  refine ⟨?_, ?_, ?_, ?_⟩
  · intro st font y cx color fill ch rest printed hguard hlook
    simp only [printAux, hguard, if_true, hlook]
  · intro st font y cx color fill ch rest printed g hguard hlook
    simp only [printAux, hguard, if_true, hlook]
  · intro st font x y text color fill
    show decide (0 < (printAux y color fill st font text x 0).2.2) = true ↔
      true ∈ printDraws y color fill st font text x
    rw [decide_eq_true_iff]
    rw [printAux_pos]
    simp
  · intro st x y text color fill
    show ((printAux y color fill st [] text x 0).1,
      (printAux y color fill st [] text x 0).2.1,
      decide (0 < (printAux y color fill st [] text x 0).2.2)) = (st, [], false)
    rw [printAux_empty_font]
    rfl

/-- Witness for C7 at concrete inputs: on the 4×4 grid with font
`{'A': [[0,1,0],[1,1,1]]}`, the unknown character `'Z'` is skipped with the
cursor untouched, and the known character `'A'` draws its glyph and
advances the cursor by `width + 1`. -/
theorem print_behavior_witness :
    printAux 0 (ColorArg.str "white") false st4 fontA ['Z'] 0 0 =
        printAux 0 (ColorArg.str "white") false st4 fontA [] 0 0 ∧
      printAux 0 (ColorArg.str "white") false st4 fontA ['A'] 0 0 =
        printAux 0 (ColorArg.str "white") false
          (st4.draw 0 0 (if widthMissing glyphA then updateFontData glyphA else glyphA).rows
            (ColorArg.str "white") false).1
          (fontUpdate fontA 'A' (if widthMissing glyphA then updateFontData glyphA else glyphA))
          [] (0 + ((if widthMissing glyphA then updateFontData glyphA else glyphA).width.getD 0
              : Int) + 1)
          (0 + (if (st4.draw 0 0
                (if widthMissing glyphA then updateFontData glyphA else glyphA).rows
                (ColorArg.str "white") false).2
              then 1 else 0)) :=
  ⟨print_behavior.1 st4 fontA 0 0 (ColorArg.str "white") false 'Z' [] 0 (by decide) (by decide),
   print_behavior.2.1 st4 fontA 0 0 (ColorArg.str "white") false 'A' [] 0 glyphA
     (by decide) (by decide)⟩
